import Mathlib

/-!
Verification of the `aww` HTML sanitizer (`src/include/aww-html/aww-html.hpp`).

The embedding models strings as `List Char`.  The C++ while-loops
(`tokenize_html`, `parse_attributes`, the sanitize pass) are translated as
fuel-indexed recursions; every loop iteration of the source consumes at least
one character (resp. token), so fuel `length + 1` (resp. `length`) makes the
embedding agree with the source on all inputs.  The sanitize pass is modelled
as emitting a list of `piece`s — one per `output.append(...)` call site of the
source — whose rendered concatenation is the output string; this allows the
structural properties (tag balance, substring freedom) to be stated about
exactly the strings the source appends.
-/

namespace aww

/-- Strings of the embedding: lists of characters. -/
abbrev Str := List Char

/-- Characters matched by `std::isspace` in the default locale. -/
def isSpaceC (c : Char) : Bool :=
  c == ' ' || c == '\t' || c == '\n' || c == '\x0b' || c == '\x0c' || c == '\r'

/-- Modelled from the spec: the external string primitive `aww::to_lower_case`
(declared in `aww-string/aww-string.hpp`; its definition is not under `src/`,
only its tests are).  The spec calls it a pure, total lowercase primitive and
the tests pin ASCII behaviour, so it is modelled as ASCII lower-casing. -/
def lowerChar (c : Char) : Char :=
  if 65 ≤ c.toNat ∧ c.toNat ≤ 90 then Char.ofNat (c.toNat + 32) else c

/-- Modelled from the spec: `aww::to_lower_case` on whole strings. -/
def to_lower_case (s : Str) : Str := s.map lowerChar

/-- `aww::string_trim_inplace` (src/src/aww-string/aww-string.cpp): erase
leading and trailing `isspace` characters. -/
def string_trim (s : Str) : Str :=
  ((s.dropWhile isSpaceC).reverse.dropWhile isSpaceC).reverse

--------------------------------------------------------------------------------
-- Constants (aww-html.hpp lines 34-51)
--------------------------------------------------------------------------------

def k_comment_start : Str := "<!--".data
def k_comment_end : Str := "-->".data
def k_cdata_start : Str := "<![CDATA[".data
def k_cdata_end : Str := "]]>".data
def k_http_prefix : Str := "http://".data
def k_https_prefix : Str := "https://".data
def k_dangerous_full_tag : Str := "script".data

def k_dangerous_tags : List Str :=
  ["script", "iframe", "xml", "embed", "object", "base", "style"].map String.data

def k_void_elements : List Str := ["br", "hr", "img"].map String.data

def k_allowed_protocols : List Str := ["http:", "https:"].map String.data

--------------------------------------------------------------------------------
-- escape_unclosed / escape_html (lines 62-72, 144-167)
--------------------------------------------------------------------------------

/-- One character of `escape_unclosed`: only `<` is escaped. -/
def escUnclosedChar (c : Char) : Str :=
  if c == '<' then "&lt;".data else [c]

/-- `escape_unclosed`: escapes only the `<` character. -/
def escape_unclosed : Str → Str
  | [] => []
  | c :: rest => escUnclosedChar c ++ escape_unclosed rest

/-- One character of `escape_html`. -/
def escChar (c : Char) : Str :=
  if c == '<' then "&lt;".data
  else if c == '>' then "&gt;".data
  else if c == '&' then "&amp;".data
  else if c == '"' then "&quot;".data
  else [c]

/-- `escape_html`: escapes `< > & "`. -/
def escape_html : Str → Str
  | [] => []
  | c :: rest => escChar c ++ escape_html rest

--------------------------------------------------------------------------------
-- Tokenization types (lines 81-97)
--------------------------------------------------------------------------------

/-- `token_type` enumeration. -/
inductive token_type
  | text
  | start_tag
  | end_tag
  | comment
deriving DecidableEq, Repr

/-- A token of the HTML input. -/
structure token where
  m_type : token_type
  m_content : Str
  m_tag_name : Str
  m_attr_str : Str
  m_unclosed : Bool
deriving DecidableEq, Repr

--------------------------------------------------------------------------------
-- Sanitization settings (lines 106-132)
--------------------------------------------------------------------------------

/-- `sanitize_html_settings`: the tag sets are modelled as lists (only
membership is ever queried on the C++ `unordered_set`s). -/
structure sanitize_html_settings where
  m_allowed_tags : List Str
  m_block_level_tags : List Str
  m_inline_tags : List Str
  m_preserve_structure : Bool
deriving DecidableEq

/-- `default_sanitize_html_settings` (lines 119-132). -/
def default_sanitize_html_settings : sanitize_html_settings where
  m_allowed_tags :=
    ["h1", "h2", "h3", "h4", "h5", "h6", "p", "blockquote", "pre", "hr",
     "br", "ul", "ol", "li", "dl", "dt", "dd", "b", "strong", "i",
     "em", "u", "s", "sub", "sup", "small", "mark", "abbr", "cite", "q",
     "code", "kbd", "var", "time", "dfn", "bdi", "bdo", "a"].map String.data
  m_block_level_tags :=
    ["h1", "h2", "h3", "h4", "h5", "h6", "p", "blockquote", "pre", "hr", "br",
     "ul", "ol", "li", "dl", "dt", "dd"].map String.data
  m_inline_tags :=
    ["b", "strong", "i", "em", "u", "s", "sub", "sup", "small", "mark", "abbr",
     "cite", "q", "code", "kbd", "var", "time", "dfn", "bdi", "bdo", "a"].map String.data
  m_preserve_structure := true

--------------------------------------------------------------------------------
-- Tokenizer (lines 178-253)
--------------------------------------------------------------------------------

/-- First index at which `pat` occurs in `s` (`std::string::find`). -/
def findSub (pat : Str) : Str → Option Nat
  | [] => if pat.isEmpty then some 0 else none
  | c :: rest =>
    if pat.isPrefixOf (c :: rest) then some 0
    else (findSub pat rest).map (· + 1)

/-- Splitting of a tag body into name and raw attribute string, as done by
`std::istringstream`: `stream >> tag_name` skips leading whitespace and reads
up to the next whitespace; `std::getline(stream, attr_str)` then reads the
remainder up to (excluding) the first newline, starting with the whitespace
character that delimited the name. -/
def splitTagBody (body : Str) : Str × Str :=
  let b1 := body.dropWhile isSpaceC
  if b1.isEmpty then ([], [])
  else
    let nm := b1.takeWhile (fun c => !(isSpaceC c))
    let rest := b1.dropWhile (fun c => !(isSpaceC c))
    (nm, rest.takeWhile (fun c => !(c == '\n')))

/-- The tokenizer loop of `tokenize_html`, fueled; each iteration of the C++
loop consumes at least one input character, so fuel `length + 1` suffices. -/
def tokGo : Nat → Str → List token
  | 0, _ => []
  | n + 1, s =>
    if s.isEmpty then []
    else if k_cdata_start.isPrefixOf s then
      match findSub k_cdata_end (s.drop k_cdata_start.length) with
      | none => []
      | some k => tokGo n ((s.drop k_cdata_start.length).drop (k + k_cdata_end.length))
    else if s.head? = some '<' then
      if k_comment_start.isPrefixOf s then
        match findSub k_comment_end (s.drop k_comment_start.length) with
        | none => [⟨token_type.comment, s, [], [], false⟩]
        | some k =>
          ⟨token_type.comment, (s.drop k_comment_start.length).take k, [], [], false⟩ ::
            tokGo n ((s.drop k_comment_start.length).drop (k + k_comment_end.length))
      else
        let rest := s.tail
        let is_end := rest.head? = some '/'
        let rest2 := if is_end then rest.tail else rest
        let body := rest2.takeWhile (fun c => !(c == '>'))
        match rest2.dropWhile (fun c => !(c == '>')) with
        | [] => [⟨token_type.text, escape_unclosed s, [], [], true⟩]
        | _ :: after =>
          let p := splitTagBody body
          (if is_end then (⟨token_type.end_tag, [], to_lower_case p.1, [], false⟩ : token)
           else ⟨token_type.start_tag, [], to_lower_case p.1, p.2, false⟩) :: tokGo n after
    else
      ⟨token_type.text, s.takeWhile (fun c => !(c == '<')), [], [], false⟩ ::
        tokGo n (s.dropWhile (fun c => !(c == '<')))

/-- `tokenize_html`. -/
def tokenize_html (input : Str) : List token := tokGo (input.length + 1) input

--------------------------------------------------------------------------------
-- Attribute parser (lines 264-312)
--------------------------------------------------------------------------------

/-- Parsing of one attribute value (lines 286-305): a quoted run to the
matching quote (an unterminated quote consumes to the end) or an unquoted run
to the next whitespace.  Returns the value and the rest of the input. -/
def parseValue (r3 : Str) : Str × Str :=
  match r3 with
  | '"' :: r4 =>
    (r4.takeWhile (fun c => !(c == '"')),
     match r4.dropWhile (fun c => !(c == '"')) with
     | [] => []
     | _ :: r5 => r5)
  | '\'' :: r4 =>
    (r4.takeWhile (fun c => !(c == '\'')),
     match r4.dropWhile (fun c => !(c == '\'')) with
     | [] => []
     | _ :: r5 => r5)
  | _ => (r3.takeWhile (fun c => !(isSpaceC c)), r3.dropWhile (fun c => !(isSpaceC c)))

/-- The loop of `parse_attributes`, fueled; attributes are returned as an
association list in insertion order (`attrs[name] = value` overwrites, which
lookup models as last-occurrence-wins). -/
def parseAttrsGo : Nat → Str → List (Str × Str)
  | 0, _ => []
  | n + 1, s =>
    let s1 := s.dropWhile isSpaceC
    if s1.isEmpty then []
    else
      let nm := to_lower_case (s1.takeWhile (fun c => !(isSpaceC c) && !(c == '=')))
      let r := s1.dropWhile (fun c => !(isSpaceC c) && !(c == '='))
      let r1 := r.dropWhile isSpaceC
      match r1 with
      | '=' :: r2 =>
        let pv := parseValue (r2.dropWhile isSpaceC)
        if nm.isEmpty then parseAttrsGo n pv.2
        else (nm, string_trim pv.1) :: parseAttrsGo n pv.2
      | _ =>
        if nm.isEmpty then parseAttrsGo n r1
        else (nm, []) :: parseAttrsGo n r1

/-- `parse_attributes`. -/
def parse_attributes (attr_str : Str) : List (Str × Str) :=
  parseAttrsGo (attr_str.length + 1) attr_str

/-- Lookup in the attribute map: last occurrence of a name wins, mirroring
repeated `attrs[name] = value` assignments into the `std::map`. -/
def map_find (attrs : List (Str × Str)) (k : Str) : Option Str :=
  ((attrs.filter (fun p => p.1 == k)).getLast?).map (·.2)

--------------------------------------------------------------------------------
-- is_safe_href (lines 323-334)
--------------------------------------------------------------------------------

/-- The leading-whitespace trim of `is_safe_href`
(`find_first_not_of(" \t\n\r")`). -/
def ltrimHref (s : Str) : Str :=
  s.dropWhile (fun c => c == ' ' || c == '\t' || c == '\n' || c == '\r')

/-- `is_safe_href`: left-trim, lower-case, then test for a prefix in
`k_allowed_protocols`. -/
def is_safe_href (href : Str) : Bool :=
  let trimmed := to_lower_case (ltrimHref href)
  k_allowed_protocols.any (fun p => p.isPrefixOf trimmed)

/-- Modelled from the spec: the href test exactly as §4.3 words it — "trim
leading whitespace, lower-case a copy, test for a literal `http://` or
`https://` prefix".  Used only to compare the spec's wording with
`is_safe_href`. -/
def spec_safe_href (href : Str) : Bool :=
  let trimmed := to_lower_case (ltrimHref href)
  k_http_prefix.isPrefixOf trimmed || k_https_prefix.isPrefixOf trimmed

--------------------------------------------------------------------------------
-- extract_event_content (lines 347-384)
--------------------------------------------------------------------------------

/-- Strip one leading and one trailing quote character (`"` or `'`), front
first, as in `extract_event_content` and the inline extraction of the
disallowed-tag branch. -/
def stripQuotesEnds (e : Str) : Str :=
  let e1 :=
    match e with
    | c :: rest => if c == '"' || c == '\'' then rest else e
    | [] => []
  match e1.getLast? with
  | some c => if c == '"' || c == '\'' then e1.dropLast else e1
  | none => e1

/-- `extract_event_content`. -/
def extract_event_content (attr_str : Str) : Str :=
  let extracted :=
    match findSub ['/'] attr_str with
    | some k =>
      let pot := attr_str.drop (k + 1)
      match findSub ['='] pot with
      | some j => stripQuotesEnds (pot.drop (j + 1))
      | none => []
    | none =>
      match findSub ['='] attr_str with
      | some j => stripQuotesEnds (attr_str.drop (j + 1))
      | none => []
  let trailer := "&quot;&gt;".data
  if trailer.isSuffixOf extracted then extracted.take (extracted.length - trailer.length)
  else extracted

--------------------------------------------------------------------------------
-- Sanitize pass (lines 400-549)
--------------------------------------------------------------------------------

/-- One emitted fragment of the sanitize pass; each constructor corresponds to
one `output.append(...)` site of `sanitize_html`. -/
inductive piece
  | txt (s : Str)       -- text appends (escaped text and verbatim unclosed text)
  | openT (t : Str)     -- `output.append("<" + tag_name + ">")` with push
  | voidT (t : Str)     -- `output.append("<" + tag_name + ">")` for void elements
  | aHref (v : Str)     -- `output.append("<a href=\"" + attrs["href"] + "\">")`
  | aBare               -- `output.append("<a>")`
  | closeT (t : Str)    -- `output.append("</" + tag_name + ">")`
deriving DecidableEq, Repr

/-- The string a piece contributes to the output. -/
def renderPiece : piece → Str
  | piece.txt s => s
  | piece.openT t => '<' :: (t ++ ['>'])
  | piece.voidT t => '<' :: (t ++ ['>'])
  | piece.aHref v => "<a href=\"".data ++ v ++ "\">".data
  | piece.aBare => "<a>".data
  | piece.closeT t => '<' :: '/' :: (t ++ ['>'])

/-- Concatenation of rendered pieces. -/
def renderPieces (ps : List piece) : Str := (ps.map renderPiece).flatten

/-- Whether a tag name triggers the obfuscated-`script` handling: strictly
shorter than "script" and equal to the corresponding prefix of "script"
(lines 429-430; the empty name qualifies). -/
def isObfStartName (nm : Str) : Bool :=
  decide (nm.length < k_dangerous_full_tag.length) &&
    k_dangerous_full_tag.take nm.length == nm

/-- Whether a token ends the obfuscated-`script` skip (lines 441-443). -/
def isObfEndTok (t : token) : Bool :=
  t.m_type == token_type.end_tag && isObfStartName t.m_tag_name

/-- Whether the token after an obfuscated start tag exists and is text
(line 433). -/
def nextIsText : List token → Bool
  | t :: _ => t.m_type == token_type.text
  | [] => false

/-- Strip the missing suffix of "script" from the front of the following text
when present (lines 434-437). -/
def stripRem (remainder s : Str) : Str :=
  if remainder.isPrefixOf s then s.drop remainder.length else s

/-- The skip loop of the obfuscated-`script` branch (lines 439-446): consume
tokens up to and including the first obfuscated end tag; the returned list is
what the enclosing for-loop continues with. -/
def skipObf : List token → List token
  | [] => []
  | t :: ts => if isObfEndTok t then ts else skipObf ts

/-- The skip loop of the dangerous-tag branch (lines 498-506): the loop
header `while (++i < tokens.size() && depth > 0)` increments before testing
`depth`, and the enclosing for-loop increments once more, so the token at
which depth reached zero is consumed and so is the one token after it. -/
def skipDanger (nm : Str) : Nat → List token → List token
  | _, [] => []
  | d, t :: ts =>
    if d = 0 then ts
    else if t.m_type == token_type.start_tag && t.m_tag_name == nm then
      skipDanger nm (d + 1) ts
    else if t.m_type == token_type.end_tag && t.m_tag_name == nm then
      skipDanger nm (d - 1) ts
    else skipDanger nm d ts

/-- The `)`-dropping adjustment applied to normal text tokens
(lines 415-419): inside an inline tag, a trailing `)` is removed. -/
def parenAdjust (st : sanitize_html_settings) (stack : List Str) (text : Str) : Str :=
  let isInline :=
    match stack with
    | top :: _ => st.m_inline_tags.contains top
    | [] => false
  if isInline && (text.getLast? == some ')') then text.dropLast else text

/-- The protocol substring `lower_href.substr(0, lower_href.find(':') + 1)`
(line 465). -/
def protocolSub (lower_href : Str) : Str :=
  match findSub [':'] lower_href with
  | some k => lower_href.take (k + 1)
  | none => []

/-- The token loop of `sanitize_html` (lines 406-547) as a piece emitter.
The open-tag stack keeps its top at the head.  Fuel equal to the number of
tokens suffices since every step continues on a strict suffix of the token
list; the out-of-fuel arm mirrors the terminal drain and is never reached
from `sanitize_pieces`. -/
def sanLoop (st : sanitize_html_settings) : Nat → List token → List Str → List piece
  | _, [], stack => stack.map piece.closeT
  | 0, _ :: _, stack => stack.map piece.closeT
  | n + 1, tok :: rest, stack =>
    match tok.m_type with
    | token_type.text =>
      if tok.m_unclosed then piece.txt tok.m_content :: sanLoop st n rest stack
      else piece.txt (escape_html (parenAdjust st stack tok.m_content)) :: sanLoop st n rest stack
    | token_type.comment => sanLoop st n rest stack
    | token_type.start_tag =>
      let nm := tok.m_tag_name
      if isObfStartName nm && nextIsText rest then
        match rest with
        | t1 :: _ =>
          piece.txt (escape_html (stripRem (k_dangerous_full_tag.drop nm.length) t1.m_content)) ::
            sanLoop st n (skipObf rest) stack
        | [] => sanLoop st n rest stack
      else if st.m_allowed_tags.contains nm then
        if nm = "a".data then
          let attrs := parse_attributes tok.m_attr_str
          match map_find attrs "href".data with
          | some v =>
            if is_safe_href v then
              piece.aHref v :: sanLoop st n rest ("a".data :: stack)
            else if k_allowed_protocols.contains (protocolSub (to_lower_case v)) then
              piece.aBare :: piece.txt (escape_html (extract_event_content tok.m_attr_str)) ::
                sanLoop st n rest ("a".data :: stack)
            else
              piece.aBare :: sanLoop st n rest ("a".data :: stack)
          | none => piece.aBare :: sanLoop st n rest ("a".data :: stack)
        else if k_void_elements.contains nm then
          piece.voidT nm :: sanLoop st n rest stack
        else
          piece.openT nm :: sanLoop st n rest (nm :: stack)
      else if k_dangerous_tags.contains nm then
        sanLoop st n (skipDanger nm 1 rest) stack
      else
        match findSub ['/'] nm with
        | some k =>
          let event_str := nm.drop (k + 1)
          match findSub ['='] event_str with
          | some j =>
            piece.txt (escape_html (stripQuotesEnds (event_str.drop (j + 1)))) ::
              sanLoop st n rest stack
          | none => sanLoop st n rest stack
        | none => sanLoop st n rest stack
    | token_type.end_tag =>
      match stack with
      | top :: stk =>
        if top = tok.m_tag_name then piece.closeT tok.m_tag_name :: sanLoop st n rest stk
        else sanLoop st n rest stack
      | [] => sanLoop st n rest stack

/-- The pieces emitted by one `sanitize_html` call. -/
def sanitize_pieces (input : Str) (st : sanitize_html_settings) : List piece :=
  let tokens := tokenize_html input
  sanLoop st tokens.length tokens []

/-- The output string of `sanitize_html`. -/
def sanitize_output (input : Str) (st : sanitize_html_settings) : Str :=
  renderPieces (sanitize_pieces input st)

/-- The two-variant `aww::result` container (aww-result.hpp): a success value
or an error message. -/
inductive result (α : Type)
  | ok (value : α)
  | err (message : Str)
deriving DecidableEq, Repr

/-- `result::is_ok`. -/
def result.is_ok {α : Type} : result α → Bool
  | result.ok _ => true
  | result.err _ => false

/-- `sanitize_html`: tokenize, run the pass, wrap in the success variant
(the single `return` of the source, line 548). -/
def sanitize_html (input : Str)
    (st : sanitize_html_settings := default_sanitize_html_settings) : result Str :=
  result.ok (sanitize_output input st)

--------------------------------------------------------------------------------
-- Generic helper lemmas
--------------------------------------------------------------------------------

lemma sub_dropWhile (p : Char → Bool) (l : Str) : l.dropWhile p ⊆ l :=
  (List.dropWhile_sublist p).subset

lemma sub_takeWhile (p : Char → Bool) (l : Str) : l.takeWhile p ⊆ l :=
  (List.takeWhile_sublist p).subset

lemma sub_tail (l : Str) : l.tail ⊆ l :=
  (List.tail_sublist l).subset

lemma sub_trim (s : Str) : string_trim s ⊆ s := by
  intro c hc
  unfold string_trim at hc
  rw [List.mem_reverse] at hc
  have h1 := sub_dropWhile isSpaceC _ hc
  rw [List.mem_reverse] at h1
  exact sub_dropWhile isSpaceC _ h1

lemma parseValue_val_sub (r3 : Str) : (parseValue r3).1 ⊆ r3 := by
  unfold parseValue
  split
  · exact fun c hc => List.mem_cons_of_mem _ (sub_takeWhile _ _ hc)
  · exact fun c hc => List.mem_cons_of_mem _ (sub_takeWhile _ _ hc)
  · exact sub_takeWhile _ _

lemma parseValue_rest_sub (r3 : Str) : (parseValue r3).2 ⊆ r3 := by
  unfold parseValue
  split
  · rename_i r4
    split
    · simp
    · rename_i a r5 heq
      intro c hc
      have h1 : c ∈ r4.dropWhile (fun c => !(c == '"')) := by
        rw [heq]; exact List.mem_cons_of_mem _ hc
      exact List.mem_cons_of_mem _ (sub_dropWhile _ _ h1)
  · rename_i r4
    split
    · simp
    · rename_i a r5 heq
      intro c hc
      have h1 : c ∈ r4.dropWhile (fun c => !(c == '\'')) := by
        rw [heq]; exact List.mem_cons_of_mem _ hc
      exact List.mem_cons_of_mem _ (sub_dropWhile _ _ h1)
  · exact sub_dropWhile _ _

/-- Characters escaped by `escape_html` never produce `<`. -/
lemma escChar_no_lt (c : Char) : '<' ∉ escChar c := by
  unfold escChar
  split
  · decide
  · split
    · decide
    · split
      · decide
      · split
        · decide
        · rename_i h1 h2 h3 h4
          simp only [List.mem_singleton]
          intro h
          exact h1 (by simp [h.symm])

/-- Characters escaped by `escape_html` never produce `>`. -/
lemma escChar_no_gt (c : Char) : '>' ∉ escChar c := by
  unfold escChar
  split
  · decide
  · split
    · decide
    · split
      · decide
      · split
        · decide
        · rename_i h1 h2 h3 h4
          simp only [List.mem_singleton]
          intro h
          exact h2 (by simp [h.symm])

lemma escape_html_no_lt (s : Str) : '<' ∉ escape_html s := by
  induction s with
  | nil => simp [escape_html]
  | cons c rest ih =>
    rw [escape_html]
    intro h
    rcases List.mem_append.mp h with h1 | h1
    · exact escChar_no_lt c h1
    · exact ih h1

lemma escape_html_no_gt (s : Str) : '>' ∉ escape_html s := by
  induction s with
  | nil => simp [escape_html]
  | cons c rest ih =>
    rw [escape_html]
    intro h
    rcases List.mem_append.mp h with h1 | h1
    · exact escChar_no_gt c h1
    · exact ih h1

lemma escUnclosedChar_no_lt (c : Char) : '<' ∉ escUnclosedChar c := by
  unfold escUnclosedChar
  split
  · decide
  · rename_i h1
    simp only [List.mem_singleton]
    intro h
    exact h1 (by simp [h.symm])

lemma escUnclosedChar_no_gt {c : Char} (hc : c ≠ '>') : '>' ∉ escUnclosedChar c := by
  unfold escUnclosedChar
  split
  · decide
  · simp only [List.mem_singleton]
    intro h
    exact hc h.symm

lemma escape_unclosed_no_lt (s : Str) : '<' ∉ escape_unclosed s := by
  induction s with
  | nil => simp [escape_unclosed]
  | cons c rest ih =>
    rw [escape_unclosed]
    intro h
    rcases List.mem_append.mp h with h1 | h1
    · exact escUnclosedChar_no_lt c h1
    · exact ih h1

lemma escape_unclosed_no_gt {s : Str} (hs : '>' ∉ s) : '>' ∉ escape_unclosed s := by
  induction s with
  | nil => simp [escape_unclosed]
  | cons c rest ih =>
    rw [escape_unclosed]
    intro h
    rcases List.mem_append.mp h with h1 | h1
    · exact escUnclosedChar_no_gt (fun hc => hs (hc ▸ List.mem_cons_self c rest)) h1
    · exact ih (fun hm => hs (List.mem_cons_of_mem c hm)) h1

/-- ASCII lower-casing can only yield `<` from `<` itself. -/
lemma lowerChar_eq_lt {c : Char} (h : lowerChar c = '<') : c = '<' := by
  unfold lowerChar at h
  split at h
  · rename_i hc
    exfalso
    have key : ∀ n : Nat, 65 ≤ n → n ≤ 90 → Char.ofNat (n + 32) ≠ '<' := by
      intro n h1 h2
      interval_cases n <;> decide
    exact key c.toNat hc.1 hc.2 h
  · exact h

lemma mem_lower_lt {s : Str} (h : '<' ∈ to_lower_case s) : '<' ∈ s := by
  unfold to_lower_case at h
  rcases List.mem_map.mp h with ⟨c, hc, hl⟩
  exact (lowerChar_eq_lt hl) ▸ hc

lemma no_lt_lower {s : Str} (h : '<' ∉ s) : '<' ∉ to_lower_case s :=
  fun hmem => h (mem_lower_lt hmem)

/-- Every parsed attribute value consists of characters of the raw attribute
string. -/
lemma parseAttrsGo_val_sub : ∀ n s, ∀ pr ∈ parseAttrsGo n s, pr.2 ⊆ s := by
  intro n
  induction n with
  | zero => intro s pr h; simp [parseAttrsGo] at h
  | succ n ih =>
    intro s pr h
    simp only [parseAttrsGo] at h
    split at h
    · simp at h
    · split at h
      · rename_i r2 heq
        have hr2 : r2 ⊆ s := by
          intro c hc
          have h1 : c ∈ ('=' :: r2) := List.mem_cons_of_mem _ hc
          rw [← heq] at h1
          exact sub_dropWhile _ _ (sub_dropWhile _ _ (sub_dropWhile _ _ h1))
        have hval : (parseValue (r2.dropWhile isSpaceC)).1 ⊆ s :=
          fun c hc => hr2 (sub_dropWhile _ _ (parseValue_val_sub _ hc))
        have hrest : (parseValue (r2.dropWhile isSpaceC)).2 ⊆ s :=
          fun c hc => hr2 (sub_dropWhile _ _ (parseValue_rest_sub _ hc))
        split at h
        · exact fun c hc => hrest (ih _ _ h hc)
        · rcases List.mem_cons.mp h with h1 | h1
          · subst h1
            exact fun c hc => hval (sub_trim _ hc)
          · exact fun c hc => hrest (ih _ _ h1 hc)
      · have hr1 : ((s.dropWhile isSpaceC).dropWhile
            (fun c => !(isSpaceC c) && !(c == '='))).dropWhile isSpaceC ⊆ s :=
          fun c hc => sub_dropWhile _ _ (sub_dropWhile _ _ (sub_dropWhile _ _ hc))
        split at h
        · exact fun c hc => hr1 (ih _ _ h hc)
        · rcases List.mem_cons.mp h with h1 | h1
          · subst h1; simp
          · exact fun c hc => hr1 (ih _ _ h1 hc)

lemma map_find_entry {attrs : List (Str × Str)} {k v : Str}
    (h : map_find attrs k = some v) : ∃ pr ∈ attrs, pr.2 = v := by
  unfold map_find at h
  rcases Option.map_eq_some'.mp h with ⟨pr, hlast, hv⟩
  exact ⟨pr, (List.mem_filter.mp (List.mem_of_getLast?_eq_some hlast)).1, hv⟩

lemma parse_attributes_val_sub {attr_str k v : Str}
    (h : map_find (parse_attributes attr_str) k = some v) : v ⊆ attr_str := by
  rcases map_find_entry h with ⟨pr, hmem, hv⟩
  subst hv
  exact parseAttrsGo_val_sub _ _ _ hmem

--------------------------------------------------------------------------------
-- Tokenizer invariants
--------------------------------------------------------------------------------

/-- What the sanitize-pass proofs need from tokens produced by the tokenizer:
unclosed text is already `<`- and `>`-free, and raw attribute strings are
`>`-free (they are cut from a tag body ending at the first `>`). -/
def tokenInv (t : token) : Prop :=
  (t.m_unclosed = true → '<' ∉ t.m_content ∧ '>' ∉ t.m_content) ∧ '>' ∉ t.m_attr_str

lemma splitTagBody_attr_sub (body : Str) : (splitTagBody body).2 ⊆ body := by
  simp only [splitTagBody]
  split
  · simp
  · exact fun c hc => sub_dropWhile _ _ (sub_dropWhile _ _ (sub_takeWhile _ _ hc))

lemma tokGo_inv : ∀ n s, ∀ t ∈ tokGo n s, tokenInv t := by
  intro n
  induction n with
  | zero => intro s t h; simp [tokGo] at h
  | succ n ih =>
    intro s t h
    simp only [tokGo] at h
    split at h
    · simp at h
    · split at h
      · split at h
        · simp at h
        · exact ih _ t h
      · split at h
        · rename_i hne hcd hlt
          split at h
          · split at h
            · rw [List.mem_singleton] at h
              subst h
              exact ⟨fun hu => by simp at hu, by simp⟩
            · rcases List.mem_cons.mp h with h1 | h1
              · subst h1
                exact ⟨fun hu => by simp at hu, by simp⟩
              · exact ih _ t h1
          · split at h
            · rename_i heq
              rw [List.mem_singleton] at h
              subst h
              refine ⟨fun _ => ⟨escape_unclosed_no_lt s, escape_unclosed_no_gt ?_⟩, by simp⟩
              -- the tag never closes, so the remainder contains no closing bracket
              have hrest2 : '>' ∉ (if s.tail.head? = some '/' then s.tail.tail else s.tail) := by
                intro hc
                have := List.dropWhile_eq_nil_iff.mp heq _ hc
                simp at this
              intro hs
              obtain ⟨st, rfl⟩ : ∃ st, s = '<' :: st := by
                cases s with
                | nil => simp at hlt
                | cons c st =>
                  simp at hlt
                  exact ⟨st, by rw [hlt]⟩
              rcases List.mem_cons.mp hs with h2 | h2
              · simp at h2
              · by_cases hslash : st.head? = some '/'
                · obtain ⟨st2, rfl⟩ : ∃ st2, st = '/' :: st2 := by
                    cases st with
                    | nil => simp at hslash
                    | cons c st2 =>
                      simp at hslash
                      exact ⟨st2, by rw [hslash]⟩
                  rcases List.mem_cons.mp h2 with h3 | h3
                  · simp at h3
                  · simp only [List.tail_cons] at hrest2
                    rw [if_pos hslash] at hrest2
                    exact hrest2 h3
                · simp only [List.tail_cons] at hrest2
                  rw [if_neg hslash] at hrest2
                  exact hrest2 h2
            · rcases List.mem_cons.mp h with h1 | h1
              · split at h1
                · subst h1
                  exact ⟨fun hu => by simp at hu, by simp⟩
                · subst h1
                  refine ⟨fun hu => by simp at hu, ?_⟩
                  intro hc
                  have hbody := splitTagBody_attr_sub _ hc
                  have := List.mem_takeWhile_imp hbody
                  simp at this
              · exact ih _ t h1
        · rcases List.mem_cons.mp h with h1 | h1
          · subst h1
            exact ⟨fun hu => by simp at hu, by simp⟩
          · exact ih _ t h1

lemma tokenize_html_inv (input : Str) : ∀ t ∈ tokenize_html input, tokenInv t :=
  tokGo_inv _ input

--------------------------------------------------------------------------------
-- Piece invariants of the sanitize pass
--------------------------------------------------------------------------------

/-- The tag universe of the default policy. -/
def tagU : List Str := default_sanitize_html_settings.m_allowed_tags

/-- Structural facts about every piece the pass emits under the default
policy: text pieces are free of `<` and `>`, tag pieces carry allowed tag
names, and href values are `>`-free. -/
def pieceInv : piece → Prop
  | piece.txt s => '<' ∉ s ∧ '>' ∉ s
  | piece.openT t => t ∈ tagU
  | piece.voidT t => t ∈ tagU
  | piece.closeT t => t ∈ tagU
  | piece.aHref v => '>' ∉ v
  | piece.aBare => True

lemma mem_of_contains {l : List Str} {a : Str} (h : l.contains a = true) : a ∈ l := by
  simpa using h

lemma skipObf_subset : ∀ l : List token, skipObf l ⊆ l := by
  intro l
  induction l with
  | nil => simp [skipObf]
  | cons t ts ih =>
    rw [skipObf]
    split
    · exact List.subset_cons_self t ts
    · exact ih.trans (List.subset_cons_self t ts)

lemma skipDanger_subset (nm : Str) : ∀ d, ∀ l : List token, skipDanger nm d l ⊆ l := by
  intro d l
  induction l generalizing d with
  | nil => simp [skipDanger]
  | cons t ts ih =>
    rw [skipDanger]
    split
    · exact List.subset_cons_self t ts
    · split
      · exact (ih _).trans (List.subset_cons_self t ts)
      · split
        · exact (ih _).trans (List.subset_cons_self t ts)
        · exact (ih _).trans (List.subset_cons_self t ts)

lemma sanLoop_pieceInv :
    ∀ n toks stack, (∀ t ∈ toks, tokenInv t) → (∀ t ∈ stack, t ∈ tagU) →
      ∀ p ∈ sanLoop default_sanitize_html_settings n toks stack, pieceInv p := by
  intro n
  induction n with
  | zero =>
    intro toks stack htoks hstack p hp
    cases toks <;> simp only [sanLoop] at hp <;>
      · rcases List.mem_map.mp hp with ⟨t, ht, rfl⟩
        exact hstack t ht
  | succ n ih =>
    intro toks stack htoks hstack p hp
    cases toks with
    | nil =>
      simp only [sanLoop] at hp
      rcases List.mem_map.mp hp with ⟨t, ht, rfl⟩
      exact hstack t ht
    | cons tok rest =>
      have htok := htoks tok (List.mem_cons_self _ _)
      have hrest : ∀ t ∈ rest, tokenInv t := fun t ht => htoks t (List.mem_cons_of_mem _ ht)
      simp only [sanLoop] at hp
      split at hp
      · -- text token
        split at hp
        · rename_i hu
          rcases List.mem_cons.mp hp with h1 | h1
          · subst h1
            exact (htok.1 hu)
          · exact ih rest stack hrest hstack p h1
        · rcases List.mem_cons.mp hp with h1 | h1
          · subst h1
            exact ⟨escape_html_no_lt _, escape_html_no_gt _⟩
          · exact ih rest stack hrest hstack p h1
      · -- comment token
        exact ih rest stack hrest hstack p hp
      · -- start tag
        split at hp
        · -- obfuscated-script branch
          split at hp
          · rcases List.mem_cons.mp hp with h1 | h1
            · subst h1
              exact ⟨escape_html_no_lt _, escape_html_no_gt _⟩
            · exact ih _ stack (fun t ht => hrest t (skipObf_subset _ ht)) hstack p h1
          · exact ih _ stack hrest hstack p hp
        · split at hp
          · -- allowed tag
            rename_i hallowed
            split at hp
            · -- anchor
              rename_i ha
              split at hp
              · rename_i v hfind
                have hstack2 : ∀ t ∈ ("a".data :: stack), t ∈ tagU := by
                  intro t ht
                  rcases List.mem_cons.mp ht with h2 | h2
                  · subst h2; decide
                  · exact hstack t h2
                split at hp
                · rcases List.mem_cons.mp hp with h1 | h1
                  · subst h1
                    intro hc
                    exact htok.2 (parse_attributes_val_sub hfind hc)
                  · exact ih rest _ hrest hstack2 p h1
                · split at hp
                  · rcases List.mem_cons.mp hp with h1 | h1
                    · subst h1; trivial
                    · rcases List.mem_cons.mp h1 with h2 | h2
                      · subst h2
                        exact ⟨escape_html_no_lt _, escape_html_no_gt _⟩
                      · exact ih rest _ hrest hstack2 p h2
                  · rcases List.mem_cons.mp hp with h1 | h1
                    · subst h1; trivial
                    · exact ih rest _ hrest hstack2 p h1
              · have hstack2 : ∀ t ∈ ("a".data :: stack), t ∈ tagU := by
                  intro t ht
                  rcases List.mem_cons.mp ht with h2 | h2
                  · subst h2; decide
                  · exact hstack t h2
                rcases List.mem_cons.mp hp with h1 | h1
                · subst h1; trivial
                · exact ih rest _ hrest hstack2 p h1
            · split at hp
              · -- void element
                rcases List.mem_cons.mp hp with h1 | h1
                · subst h1
                  exact mem_of_contains hallowed
                · exact ih rest stack hrest hstack p h1
              · -- other allowed tag: emit and push
                rcases List.mem_cons.mp hp with h1 | h1
                · subst h1
                  exact mem_of_contains hallowed
                · refine ih rest _ hrest ?_ p h1
                  intro t ht
                  rcases List.mem_cons.mp ht with h2 | h2
                  · subst h2; exact mem_of_contains hallowed
                  · exact hstack t h2
          · split at hp
            · -- dangerous tag: skip
              exact ih _ stack (fun t ht => hrest t (skipDanger_subset _ _ rest ht)) hstack p hp
            · -- disallowed tag: possible inline event extraction
              split at hp
              · split at hp
                · rcases List.mem_cons.mp hp with h1 | h1
                  · subst h1
                    exact ⟨escape_html_no_lt _, escape_html_no_gt _⟩
                  · exact ih rest stack hrest hstack p h1
                · exact ih rest stack hrest hstack p hp
              · exact ih rest stack hrest hstack p hp
      · -- end tag
        split at hp
        · rename_i top stk
          split at hp
          · rename_i htop
            rcases List.mem_cons.mp hp with h1 | h1
            · subst h1
              exact htop ▸ hstack top (List.mem_cons_self _ _)
            · exact ih rest stk hrest (fun t ht => hstack t (List.mem_cons_of_mem _ ht)) p h1
          · exact ih rest _ hrest hstack p hp
        · exact ih rest _ hrest hstack p hp

--------------------------------------------------------------------------------
-- Occurrences of a pattern across an append
--------------------------------------------------------------------------------

/-- An occurrence of `w` in `a ++ b` lies in `a`, lies in `b`, or straddles
the boundary with a nonempty proper prefix of `w` at the end of `a`. -/
lemma infix_append_cases {w a b : Str} (h : w <:+: a ++ b) :
    w <:+: a ∨ w <:+: b ∨
      ∃ k, 0 < k ∧ k < w.length ∧ w.take k <:+ a ∧ w.drop k <+: b := by
  induction a with
  | nil => exact Or.inr (Or.inl (by simpa using h))
  | cons c a ih =>
    rw [List.cons_append] at h
    rcases List.infix_cons_iff.mp h with hp | hi
    · by_cases hl : w.length ≤ (c :: a).length
      · left
        have h2 : (c :: a) <+: (c :: a) ++ b := List.prefix_append _ _
        have h3 : w <+: c :: a :=
          List.prefix_of_prefix_length_le (by simpa using hp) h2 hl
        exact h3.isInfix
      · right; right
        have hlen : (c :: a).length < w.length := by omega
        rcases hp with ⟨t, ht⟩
        have ht' : w ++ t = (c :: a) ++ b := by simpa using ht
        refine ⟨(c :: a).length, by simp, hlen, ?_, ?_⟩
        · have htake := congrArg (List.take (c :: a).length) ht'
          rw [List.take_append_of_le_length (by omega),
              List.take_append_of_le_length (le_refl _), List.take_length] at htake
          rw [htake]
        · refine ⟨t, ?_⟩
          have hdrop := congrArg (List.drop (c :: a).length) ht'
          rw [List.drop_append_of_le_length (by omega)] at hdrop
          rw [hdrop, List.drop_left]
    · rcases ih hi with h1 | h2 | ⟨k, hk0, hkl, hsuf, hp2⟩
      · exact Or.inl (List.infix_cons h1)
      · exact Or.inr (Or.inl h2)
      · exact Or.inr (Or.inr ⟨k, hk0, hkl, hsuf.trans (List.suffix_cons c a), hp2⟩)

lemma suffix_getLast {x s : Str} {c0 : Char} (h : x <:+ s) (hx : x ≠ [])
    (hs : s.getLast? = some c0) : x.getLast? = some c0 := by
  rcases h with ⟨u, hu⟩
  rw [← hu, List.getLast?_append_of_ne_nil _ hx] at hs
  exact hs

lemma pref_head {x l : Str} (h : x <+: l) (hx : x ≠ []) : x.head? = l.head? := by
  rcases h with ⟨t, rfl⟩
  exact (List.head?_append_of_ne_nil _ hx).symm

lemma renderPieces_cons (p : piece) (ps : List piece) :
    renderPieces (p :: ps) = renderPiece p ++ renderPieces ps := by
  simp [renderPieces]

lemma lower_append (a b : Str) :
    to_lower_case (a ++ b) = to_lower_case a ++ to_lower_case b :=
  List.map_append _ _ _

/-- Every non-text piece renders to a string ending in `>`. -/
lemma renderPiece_concat_gt :
    ∀ p : piece, (∀ s, p ≠ piece.txt s) → ∃ xs, renderPiece p = xs ++ ['>'] := by
  intro p hp
  cases p with
  | txt s => exact absurd rfl (hp s)
  | openT t => exact ⟨'<' :: t, by simp [renderPiece]⟩
  | voidT t => exact ⟨'<' :: t, by simp [renderPiece]⟩
  | closeT t => exact ⟨'<' :: '/' :: t, by simp [renderPiece]⟩
  | aBare => exact ⟨"<a".data, by simp [renderPiece]⟩
  | aHref v =>
    refine ⟨"<a href=\"".data ++ v ++ ['"'], ?_⟩
    simp [renderPiece]

/-- Lower-casing a string ending in `>` keeps the final `>`. -/
lemma lower_concat_gt (xs : Str) :
    to_lower_case (xs ++ ['>']) = to_lower_case xs ++ ['>'] := by
  rw [lower_append]
  rfl

/-- The blame lemma: under the piece invariants of the default policy, an
occurrence of a pattern `'<' :: wt` (with `wt` free of `<`, `>`, not starting
with `a` or `/`, and not occurring in rendered allowed tags) in the rendered
lower-cased output can only come from an emitted href value containing `<`. -/
lemma pieces_blame (wt : Str) (hwt : wt ≠ [])
    (hgt : '>' ∉ ('<' :: wt)) (hlt : '<' ∉ wt) (hta : wt.head? ≠ some 'a')
    (htags : ∀ t ∈ tagU,
        ¬ (('<' :: wt) <:+: to_lower_case ('<' :: (t ++ ['>']))) ∧
        ¬ (('<' :: wt) <:+: to_lower_case ('<' :: '/' :: (t ++ ['>'])))) :
    ∀ ps, (∀ p ∈ ps, pieceInv p) →
      ('<' :: wt) <:+: to_lower_case (renderPieces ps) →
      ∃ v, piece.aHref v ∈ ps ∧ '<' ∈ v := by
  intro ps
  induction ps with
  | nil =>
    intro _ hocc
    have : renderPieces ([] : List piece) = [] := rfl
    rw [this] at hocc
    exact absurd (List.eq_nil_of_infix_nil hocc) (by simp)
  | cons p ps ih =>
    intro hinv hocc
    have hp := hinv p (List.mem_cons_self _ _)
    have hps : ∀ q ∈ ps, pieceInv q := fun q hq => hinv q (List.mem_cons_of_mem _ hq)
    rw [renderPieces_cons, lower_append] at hocc
    rcases infix_append_cases hocc with hin | hin | ⟨k, hk0, hkl, hsuf, hpf⟩
    · -- the occurrence lies inside the first piece
      cases p with
      | txt s =>
        exfalso
        have : '<' ∈ to_lower_case s := hin.sublist.subset (List.mem_cons_self _ _)
        exact hp.1 (mem_lower_lt this)
      | openT t => exact absurd hin ((htags t hp).1)
      | voidT t => exact absurd hin ((htags t hp).1)
      | closeT t => exact absurd hin ((htags t hp).2)
      | aBare =>
        exfalso
        have hform : to_lower_case (renderPiece piece.aBare) = '<' :: ['a', '>'] := by decide
        rw [hform] at hin
        rcases hin with ⟨u, r, hu⟩
        cases u with
        | nil =>
          have hu2 : '<' :: (wt ++ r) = '<' :: ['a', '>'] := hu
          have htl : wt ++ r = ['a', '>'] := List.cons_injective hu2
          have hh := congrArg List.head? htl
          rw [List.head?_append_of_ne_nil _ hwt] at hh
          exact hta hh
        | cons c u' =>
          have hu2 : c :: ((u' ++ ('<' :: wt)) ++ r) = '<' :: ['a', '>'] := hu
          injection hu2 with hc htl
          have hmem : '<' ∈ (['a', '>'] : Str) := by
            rw [← htl]
            simp
          simp at hmem
      | aHref v =>
        by_cases hv : '<' ∈ v
        · exact ⟨v, List.mem_cons_self _ _, hv⟩
        exfalso
        have hform : to_lower_case (renderPiece (piece.aHref v)) =
            '<' :: ("a href=\"".data ++ (to_lower_case v ++ "\">".data)) := by
          show to_lower_case ("<a href=\"".data ++ v ++ "\">".data) = _
          rw [lower_append, lower_append]
          rfl
        rw [hform] at hin
        have hnolt : '<' ∉ ("a href=\"".data ++ (to_lower_case v ++ "\">".data)) := by
          intro hmem
          rcases List.mem_append.mp hmem with h1 | h1
          · simp at h1
          · rcases List.mem_append.mp h1 with h2 | h2
            · exact (no_lt_lower hv) h2
            · simp at h2
        rcases hin with ⟨u, r, hu⟩
        cases u with
        | nil =>
          have hu2 : '<' :: (wt ++ r) =
              '<' :: ("a href=\"".data ++ (to_lower_case v ++ "\">".data)) := hu
          have htl := List.cons_injective hu2
          have hh := congrArg List.head? htl
          rw [List.head?_append_of_ne_nil _ hwt,
              List.head?_append_of_ne_nil _ (by decide : "a href=\"".data ≠ [])] at hh
          exact hta hh
        | cons c u' =>
          have hu2 : c :: ((u' ++ ('<' :: wt)) ++ r) =
              '<' :: ("a href=\"".data ++ (to_lower_case v ++ "\">".data)) := hu
          injection hu2 with hc htl
          apply hnolt
          rw [← htl]
          simp
    · -- the occurrence lies in the remaining pieces
      rcases ih hps hin with ⟨v, hv, hvl⟩
      exact ⟨v, List.mem_cons_of_mem _ hv, hvl⟩
    · -- the occurrence straddles the boundary
      exfalso
      obtain ⟨k', rfl⟩ : ∃ k', k = k' + 1 := ⟨k - 1, by omega⟩
      rw [List.take_succ_cons] at hsuf
      cases p with
      | txt s =>
        have : '<' ∈ to_lower_case s := hsuf.sublist.subset (List.mem_cons_self _ _)
        exact hp.1 (mem_lower_lt this)
      | openT t =>
        rcases renderPiece_concat_gt (piece.openT t) (by intro s h; cases h) with ⟨xs, hxs⟩
        rw [hxs, lower_concat_gt] at hsuf
        have hlast := suffix_getLast hsuf (by simp) (List.getLast?_concat _)
        rcases List.mem_cons.mp (List.mem_of_getLast?_eq_some hlast) with h1 | h1
        · simp at h1
        · exact hgt (List.mem_cons_of_mem _ (List.take_subset _ _ h1))
      | voidT t =>
        rcases renderPiece_concat_gt (piece.voidT t) (by intro s h; cases h) with ⟨xs, hxs⟩
        rw [hxs, lower_concat_gt] at hsuf
        have hlast := suffix_getLast hsuf (by simp) (List.getLast?_concat _)
        rcases List.mem_cons.mp (List.mem_of_getLast?_eq_some hlast) with h1 | h1
        · simp at h1
        · exact hgt (List.mem_cons_of_mem _ (List.take_subset _ _ h1))
      | closeT t =>
        rcases renderPiece_concat_gt (piece.closeT t) (by intro s h; cases h) with ⟨xs, hxs⟩
        rw [hxs, lower_concat_gt] at hsuf
        have hlast := suffix_getLast hsuf (by simp) (List.getLast?_concat _)
        rcases List.mem_cons.mp (List.mem_of_getLast?_eq_some hlast) with h1 | h1
        · simp at h1
        · exact hgt (List.mem_cons_of_mem _ (List.take_subset _ _ h1))
      | aBare =>
        rcases renderPiece_concat_gt piece.aBare (by intro s h; cases h) with ⟨xs, hxs⟩
        rw [hxs, lower_concat_gt] at hsuf
        have hlast := suffix_getLast hsuf (by simp) (List.getLast?_concat _)
        rcases List.mem_cons.mp (List.mem_of_getLast?_eq_some hlast) with h1 | h1
        · simp at h1
        · exact hgt (List.mem_cons_of_mem _ (List.take_subset _ _ h1))
      | aHref v =>
        rcases renderPiece_concat_gt (piece.aHref v) (by intro s h; cases h) with ⟨xs, hxs⟩
        rw [hxs, lower_concat_gt] at hsuf
        have hlast := suffix_getLast hsuf (by simp) (List.getLast?_concat _)
        rcases List.mem_cons.mp (List.mem_of_getLast?_eq_some hlast) with h1 | h1
        · simp at h1
        · exact hgt (List.mem_cons_of_mem _ (List.take_subset _ _ h1))

--------------------------------------------------------------------------------
-- The watched substrings
--------------------------------------------------------------------------------

/-- The dangerous-tag substrings of the non-leakage property. -/
def dangerWords : List Str :=
  ["<script", "<iframe", "<object", "<embed", "<base", "<style", "<xml"].map String.data

/-- All patterns handled by the blame lemma: the comment opener and the
dangerous-tag openers. -/
def watchWords : List Str := "<!--".data :: dangerWords

/-- A piece is href-clean when it is not an `<a href="V">` whose value `V`
contains a `<` character. -/
def hrefClean : piece → Bool
  | piece.aHref v => !(v.contains '<')
  | _ => true

lemma watch_blame :
    ∀ w ∈ watchWords, ∀ ps, (∀ p ∈ ps, pieceInv p) →
      w <:+: to_lower_case (renderPieces ps) →
      ∃ v, piece.aHref v ∈ ps ∧ '<' ∈ v := by
  intro w hw
  fin_cases hw
  · exact pieces_blame "!--".data (by decide) (by decide) (by decide) (by decide) (by decide)
  · exact pieces_blame "script".data (by decide) (by decide) (by decide) (by decide) (by decide)
  · exact pieces_blame "iframe".data (by decide) (by decide) (by decide) (by decide) (by decide)
  · exact pieces_blame "object".data (by decide) (by decide) (by decide) (by decide) (by decide)
  · exact pieces_blame "embed".data (by decide) (by decide) (by decide) (by decide) (by decide)
  · exact pieces_blame "base".data (by decide) (by decide) (by decide) (by decide) (by decide)
  · exact pieces_blame "style".data (by decide) (by decide) (by decide) (by decide) (by decide)
  · exact pieces_blame "xml".data (by decide) (by decide) (by decide) (by decide) (by decide)

lemma sanitize_pieces_inv (input : Str) :
    ∀ p ∈ sanitize_pieces input default_sanitize_html_settings, pieceInv p :=
  sanLoop_pieceInv _ _ _ (tokenize_html_inv input) (by simp)

lemma sanitize_watch {input w : Str} (hw : w ∈ watchWords)
    (h : ∀ p ∈ sanitize_pieces input default_sanitize_html_settings, hrefClean p = true) :
    ¬ w <:+: to_lower_case (sanitize_output input default_sanitize_html_settings) := by
  intro hocc
  rcases watch_blame w hw _ (sanitize_pieces_inv input) hocc with ⟨v, hv, hvl⟩
  have hcl := h _ hv
  simp [hrefClean] at hcl
  exact hcl hvl

--------------------------------------------------------------------------------
-- No occurrence of "->" in the output
--------------------------------------------------------------------------------

/-- Scanner: no `-` immediately followed by `>` anywhere in the string. -/
def noDashGt : Str → Bool
  | [] => true
  | c :: rest => !((c == '-') && (rest.head? == some '>')) && noDashGt rest

lemma noDashGt_no_gt {s : Str} (h : '>' ∉ s) : noDashGt s = true := by
  induction s with
  | nil => rfl
  | cons c rest ih =>
    rw [noDashGt, Bool.and_eq_true]
    refine ⟨?_, ih (fun hm => h (List.mem_cons_of_mem _ hm))⟩
    cases rest with
    | nil => simp
    | cons d r' =>
      have hd : d ≠ '>' := fun hd => h (by simp [hd])
      simp [hd]

lemma noDashGt_append {a b : Str} (ha : noDashGt a = true) (hb : noDashGt b = true)
    (hbd : ∀ c, b.head? = some c → c ≠ '>') :
    noDashGt (a ++ b) = true := by
  induction a with
  | nil => simpa using hb
  | cons c a ih =>
    cases a with
    | nil =>
      cases b with
      | nil => simpa using ha
      | cons d b' =>
        have hd : d ≠ '>' := hbd d rfl
        rw [List.singleton_append, noDashGt]
        simp [hd, hb]
    | cons c2 a' =>
      rw [noDashGt, Bool.and_eq_true] at ha
      rcases ha with ⟨ha1, ha2⟩
      rw [List.cons_append, noDashGt, Bool.and_eq_true]
      refine ⟨?_, ih ha2⟩
      simpa using ha1

lemma noDashGt_not_infix {s : Str} (h : noDashGt s = true) : ¬ ("->".data <:+: s) := by
  intro hocc
  rcases hocc with ⟨u, r, hu⟩
  have key : ∀ u' : Str, noDashGt (u' ++ ('-' :: '>' :: r)) = false := by
    intro u'
    induction u' with
    | nil => simp [noDashGt]
    | cons c u' ih => simp [noDashGt, ih]
  rw [← hu] at h
  have := key u
  simp only [show ("->".data : Str) = ['-', '>'] from rfl] at hu h
  rw [show u ++ ['-', '>'] ++ r = u ++ ('-' :: '>' :: r) by simp] at h
  rw [this] at h
  cases h

lemma renderPiece_noDashGt (p : piece) (hp : pieceInv p) :
    noDashGt (renderPiece p) = true := by
  have htag : ∀ t ∈ tagU, noDashGt ('<' :: (t ++ ['>'])) = true ∧
      noDashGt ('<' :: '/' :: (t ++ ['>'])) = true := by decide
  cases p with
  | txt s => exact noDashGt_no_gt hp.2
  | openT t => exact (htag t hp).1
  | voidT t => exact (htag t hp).1
  | closeT t => exact (htag t hp).2
  | aBare => decide
  | aHref v =>
    show noDashGt ("<a href=\"".data ++ v ++ "\">".data) = true
    have h1 : noDashGt ("<a href=\"".data ++ v) = true := by
      apply noDashGt_append (by decide) (noDashGt_no_gt hp)
      intro c hc
      intro hcge
      subst hcge
      apply hp
      cases v with
      | nil => simp at hc
      | cons d v' =>
        simp at hc
        simp [hc]
    apply noDashGt_append h1 (by decide)
    intro c hc
    simp at hc
    subst hc
    decide

lemma renderPieces_head_ne_gt :
    ∀ ps : List piece, (∀ p ∈ ps, pieceInv p) →
      ∀ c, (renderPieces ps).head? = some c → c ≠ '>' := by
  intro ps
  induction ps with
  | nil => intro _ c hc; simp [renderPieces] at hc
  | cons p ps ih =>
    intro hinv c hc
    have hp := hinv p (List.mem_cons_self _ _)
    have hps : ∀ q ∈ ps, pieceInv q := fun q hq => hinv q (List.mem_cons_of_mem _ hq)
    rw [renderPieces_cons] at hc
    cases p with
    | txt s =>
      cases s with
      | nil => exact ih hps c (by simpa [renderPiece] using hc)
      | cons d s' =>
        have hdc : d = c := by simpa [renderPiece] using hc
        subst hdc
        exact fun hgg => hp.2 (by simp [hgg])
    | openT t =>
      have hlc : '<' = c := by simpa [renderPiece] using hc
      subst hlc
      decide
    | voidT t =>
      have hlc : '<' = c := by simpa [renderPiece] using hc
      subst hlc
      decide
    | closeT t =>
      have hlc : '<' = c := by simpa [renderPiece] using hc
      subst hlc
      decide
    | aBare =>
      have hlc : '<' = c := by simpa [renderPiece] using hc
      subst hlc
      decide
    | aHref v =>
      have hlc : '<' = c := by simpa [renderPiece] using hc
      subst hlc
      decide

lemma pieces_noDashGt :
    ∀ ps : List piece, (∀ p ∈ ps, pieceInv p) → noDashGt (renderPieces ps) = true := by
  intro ps
  induction ps with
  | nil => intro _; rfl
  | cons p ps ih =>
    intro hinv
    have hp := hinv p (List.mem_cons_self _ _)
    have hps : ∀ q ∈ ps, pieceInv q := fun q hq => hinv q (List.mem_cons_of_mem _ hq)
    rw [renderPieces_cons]
    exact noDashGt_append (renderPiece_noDashGt p hp) (ih hps) (renderPieces_head_ne_gt ps hps)

--------------------------------------------------------------------------------
-- Balance of the emitted tag structure
--------------------------------------------------------------------------------

/-- Balance checker over emitted pieces: simulates a stack of open tags and
accepts exactly when every opening piece is closed by a correctly nested
matching closing piece and the final stack is empty.  Text and void pieces are
neutral. -/
def balScan : List piece → List Str → Bool
  | [], [] => true
  | [], _ :: _ => false
  | piece.txt _ :: ps, stk => balScan ps stk
  | piece.voidT _ :: ps, stk => balScan ps stk
  | piece.openT t :: ps, stk => balScan ps (t :: stk)
  | piece.aHref _ :: ps, stk => balScan ps ("a".data :: stk)
  | piece.aBare :: ps, stk => balScan ps ("a".data :: stk)
  | piece.closeT t :: ps, stk =>
    match stk with
    | top :: stk2 => (top == t) && balScan ps stk2
    | [] => false

lemma balScan_drain : ∀ stk : List Str, balScan (stk.map piece.closeT) stk = true := by
  intro stk
  induction stk with
  | nil => rfl
  | cons t stk ih => simp [balScan, ih]

/-- The pass always produces output whose opens and closes balance against the
stack it started with. -/
lemma sanLoop_balanced (st : sanitize_html_settings) :
    ∀ n toks stack, balScan (sanLoop st n toks stack) stack = true := by
  intro n
  induction n with
  | zero =>
    intro toks stack
    cases toks <;> exact balScan_drain stack
  | succ n ih =>
    intro toks stack
    cases toks with
    | nil => exact balScan_drain stack
    | cons tok rest =>
      show balScan (sanLoop st (n + 1) (tok :: rest) stack) stack = true
      simp only [sanLoop]
      split
      · -- text
        split
        · simpa only [balScan] using ih rest stack
        · simpa only [balScan] using ih rest stack
      · -- comment
        exact ih rest stack
      · -- start tag
        split
        · split
          · simpa only [balScan] using ih (skipObf _) stack
          · exact ih _ stack
        · split
          · split
            · split
              · split
                · simpa only [balScan] using ih rest ("a".data :: stack)
                · split
                  · simpa only [balScan] using ih rest ("a".data :: stack)
                  · simpa only [balScan] using ih rest ("a".data :: stack)
              · simpa only [balScan] using ih rest ("a".data :: stack)
            · split
              · simpa only [balScan] using ih rest stack
              · simpa only [balScan] using ih rest (_ :: stack)
          · split
            · exact ih _ stack
            · split
              · split
                · simpa only [balScan] using ih rest stack
                · exact ih rest stack
              · exact ih rest stack
      · -- end tag
        split
        · split
          · rename_i top stk2 htop
            have : balScan (piece.closeT tok.m_tag_name :: sanLoop st n rest stk2)
                (top :: stk2) = ((top == tok.m_tag_name) && balScan (sanLoop st n rest stk2) stk2) := by
              simp only [balScan]
            rw [this, htop]
            simp [ih rest stk2]
          · exact ih rest _
        · exact ih rest _

--------------------------------------------------------------------------------
-- Every emitted href value passed is_safe_href
--------------------------------------------------------------------------------

lemma sanLoop_aHref_safe (st : sanitize_html_settings) :
    ∀ n toks stack v, piece.aHref v ∈ sanLoop st n toks stack →
      is_safe_href v = true := by
  intro n
  induction n with
  | zero =>
    intro toks stack v hv
    cases toks <;>
      · simp only [sanLoop] at hv
        rcases List.mem_map.mp hv with ⟨t, _, ht⟩
        cases ht
  | succ n ih =>
    intro toks stack v hv
    cases toks with
    | nil =>
      simp only [sanLoop] at hv
      rcases List.mem_map.mp hv with ⟨t, _, ht⟩
      cases ht
    | cons tok rest =>
      simp only [sanLoop] at hv
      split at hv
      · split at hv
        · rcases List.mem_cons.mp hv with h1 | h1
          · cases h1
          · exact ih rest stack v h1
        · rcases List.mem_cons.mp hv with h1 | h1
          · cases h1
          · exact ih rest stack v h1
      · exact ih rest stack v hv
      · split at hv
        · split at hv
          · rcases List.mem_cons.mp hv with h1 | h1
            · cases h1
            · exact ih _ stack v h1
          · exact ih _ stack v hv
        · split at hv
          · split at hv
            · split at hv
              · split at hv
                · rename_i hsafe
                  rcases List.mem_cons.mp hv with h1 | h1
                  · cases h1
                    exact hsafe
                  · exact ih rest _ v h1
                · split at hv
                  · rcases List.mem_cons.mp hv with h1 | h1
                    · cases h1
                    · rcases List.mem_cons.mp h1 with h2 | h2
                      · cases h2
                      · exact ih rest _ v h2
                  · rcases List.mem_cons.mp hv with h1 | h1
                    · cases h1
                    · exact ih rest _ v h1
              · rcases List.mem_cons.mp hv with h1 | h1
                · cases h1
                · exact ih rest _ v h1
            · split at hv
              · rcases List.mem_cons.mp hv with h1 | h1
                · cases h1
                · exact ih rest _ v h1
              · rcases List.mem_cons.mp hv with h1 | h1
                · cases h1
                · exact ih rest _ v h1
          · split at hv
            · exact ih _ stack v hv
            · split at hv
              · split at hv
                · rcases List.mem_cons.mp hv with h1 | h1
                  · cases h1
                  · exact ih rest _ v h1
                · exact ih rest _ v hv
              · exact ih rest _ v hv
      · split at hv
        · split at hv
          · rcases List.mem_cons.mp hv with h1 | h1
            · cases h1
            · exact ih rest _ v h1
          · exact ih rest _ v hv
        · exact ih rest _ v hv

--------------------------------------------------------------------------------
-- Small helpers for the claim theorems
--------------------------------------------------------------------------------

lemma dangerous_not_obf {nm : Str} (h : nm ∈ k_dangerous_tags) :
    isObfStartName nm = false := by
  fin_cases h <;> decide

lemma takeWhile_append_gt (xs ys : Str) (h : '>' ∉ xs) :
    (xs ++ '>' :: ys).takeWhile (fun c => !(c == '>')) = xs := by
  induction xs with
  | nil => simp [List.takeWhile]
  | cons c xs ih =>
    have hc : c ≠ '>' := fun hc => h (by simp [hc])
    rw [List.cons_append, List.takeWhile_cons, if_pos (by simp [hc]),
      ih (fun hm => h (List.mem_cons_of_mem _ hm))]

lemma dropWhile_append_gt (xs ys : Str) (h : '>' ∉ xs) :
    (xs ++ '>' :: ys).dropWhile (fun c => !(c == '>')) = '>' :: ys := by
  induction xs with
  | nil => simp [List.dropWhile]
  | cons c xs ih =>
    have hc : c ≠ '>' := fun hc => h (by simp [hc])
    rw [List.cons_append, List.dropWhile_cons, if_pos (by simp [hc])]
    exact ih (fun hm => h (List.mem_cons_of_mem _ hm))

lemma sanLoop_drain (st : sanitize_html_settings) (n : Nat) (stack : List Str) :
    sanLoop st n [] stack = stack.map piece.closeT := by
  cases n <;> rfl

--------------------------------------------------------------------------------
-- Claim theorems
--------------------------------------------------------------------------------

/-- C9: for every input string and every settings value, `sanitize_html`
returns the success variant of the result wrapper (`is_ok` is true); it never
constructs the error variant, and every input is resolved to some output
string (the embedded function is total by construction). -/
theorem c9_always_ok (input : Str) (st : sanitize_html_settings) :
    (sanitize_html input st).is_ok = true ∧
    sanitize_html input st = result.ok (sanitize_output input st) :=
  ⟨rfl, rfl⟩

/-- C8: the emitted tag structure is fully balanced: the balance checker
accepts the emitted pieces for every input and every settings value; an end
tag is emitted (with the stack popped) exactly when it matches the top of the
open-tag stack and is discarded otherwise; and when the token sequence is
exhausted the remaining open tags are closed in LIFO order. -/
theorem c8_balanced :
    (∀ (input : Str) (st : sanitize_html_settings),
      balScan (sanitize_pieces input st) [] = true) ∧
    (∀ (st : sanitize_html_settings) (n : Nat) (tok : token) (rest : List token)
        (top : Str) (stk : List Str),
      tok.m_type = token_type.end_tag → top = tok.m_tag_name →
      sanLoop st (n + 1) (tok :: rest) (top :: stk) =
        piece.closeT tok.m_tag_name :: sanLoop st n rest stk) ∧
    (∀ (st : sanitize_html_settings) (n : Nat) (tok : token) (rest : List token)
        (top : Str) (stk : List Str),
      tok.m_type = token_type.end_tag → top ≠ tok.m_tag_name →
      sanLoop st (n + 1) (tok :: rest) (top :: stk) =
        sanLoop st n rest (top :: stk)) ∧
    (∀ (st : sanitize_html_settings) (n : Nat) (stack : List Str),
      sanLoop st n [] stack = stack.map piece.closeT) := by
  refine ⟨fun input st => sanLoop_balanced st _ _ [], ?_, ?_, fun st n stack => sanLoop_drain st n stack⟩
  · intro st n tok rest top stk htype htop
    simp only [sanLoop, htype]
    rw [if_pos htop]
  · intro st n tok rest top stk htype htop
    simp only [sanLoop, htype]
    rw [if_neg htop]

/-- C8 witness: the end-tag step equations applied at a concrete matching and
a concrete mismatching closer. -/
theorem c8_witness :
    (sanLoop default_sanitize_html_settings 1
        [⟨token_type.end_tag, [], "b".data, [], false⟩] ["b".data] =
      piece.closeT "b".data :: sanLoop default_sanitize_html_settings 0 [] []) ∧
    (sanLoop default_sanitize_html_settings 1
        [⟨token_type.end_tag, [], "b".data, [], false⟩] ["p".data] =
      sanLoop default_sanitize_html_settings 0 [] ["p".data]) :=
  ⟨c8_balanced.2.1 default_sanitize_html_settings 0 _ [] "b".data [] rfl (by decide),
   c8_balanced.2.2.1 default_sanitize_html_settings 0 _ [] "p".data [] rfl (by decide)⟩

/-- C1 counterexample: `is_safe_href` accepts `"http:x"`, which does not start
with the literal `http://` or `https://` after left-trimming and
lower-casing, and the sanitizer emits that value as an href. -/
theorem c1_counterexample :
    is_safe_href "http:x".data = true ∧
    spec_safe_href "http:x".data = false ∧
    sanitize_html "<a href=\"http:x\">y</a>".data default_sanitize_html_settings =
      result.ok "<a href=\"http:x\">y</a>".data := by
  refine ⟨by decide, by decide, by decide⟩

/-- C1 (amended): `is_safe_href v` holds exactly when `v`, left-trimmed and
lower-cased, starts with the literal `"http:"` or `"https:"` (not
`"http://"`/`"https://"`), and every href value the sanitizer ever emits in an
`<a href="...">` piece satisfies `is_safe_href`. -/
theorem c1_href_scheme :
    (∀ v : Str, is_safe_href v =
      ("http:".data.isPrefixOf (to_lower_case (ltrimHref v)) ||
       "https:".data.isPrefixOf (to_lower_case (ltrimHref v)))) ∧
    (∀ (input : Str) (st : sanitize_html_settings) (v : Str),
      piece.aHref v ∈ sanitize_pieces input st → is_safe_href v = true) := by
  constructor
  · intro v
    simp [is_safe_href, k_allowed_protocols]
  · intro input st v hv
    exact sanLoop_aHref_safe st _ _ _ v hv

/-- C1 witness: the emitted-href part of the theorem applied at a concrete
anchor input. -/
theorem c1_witness :
    (piece.aHref "http://e".data ∈
      sanitize_pieces "<a href=\"http://e\">x</a>".data default_sanitize_html_settings) ∧
    is_safe_href "http://e".data = true :=
  ⟨by decide,
   c1_href_scheme.2 "<a href=\"http://e\">x</a>".data default_sanitize_html_settings
     "http://e".data (by decide)⟩

/-- C5 counterexample: a text token inside an inline tag whose content ends
with `)` is not appended as escaped content: the final `)` is dropped
(`<b>a)</b>` becomes `<b>a</b>`). -/
theorem c5_counterexample :
    sanitize_html "<b>a)</b>".data default_sanitize_html_settings =
      result.ok "<b>a</b>".data ∧
    "<b>a</b>".data ≠ "<b>a)</b>".data := by
  refine ⟨by decide, by decide⟩

/-- C5 (amended): a normal text token is appended as the HTML-escape of its
content after the `)`-adjustment: when the innermost open tag is in the inline
set and the content ends with `)`, that trailing `)` is first removed;
otherwise the content is escaped unchanged (demonstrated for a block-level
context by the last conjunct). -/
theorem c5_text_escape :
    (∀ (st : sanitize_html_settings) (n : Nat) (tok : token) (rest : List token)
        (stack : List Str),
      tok.m_type = token_type.text → tok.m_unclosed = false →
      sanLoop st (n + 1) (tok :: rest) stack =
        piece.txt (escape_html (parenAdjust st stack tok.m_content)) ::
          sanLoop st n rest stack) ∧
    (∀ (st : sanitize_html_settings) (stack : List Str) (text : Str),
      (match stack with
       | top :: _ => st.m_inline_tags.contains top
       | [] => false) = false ∨ text.getLast? ≠ some ')' →
      parenAdjust st stack text = text) ∧
    sanitize_html "<p>a)</p>".data default_sanitize_html_settings =
      result.ok "<p>a)</p>".data := by
  refine ⟨?_, ?_, by decide⟩
  · intro st n tok rest stack htype hu
    simp only [sanLoop, htype, hu]
    rfl
  · intro st stack text h
    unfold parenAdjust
    rw [if_neg]
    intro hcond
    rw [Bool.and_eq_true] at hcond
    obtain ⟨hc1, hc2⟩ := hcond
    rcases h with h | h
    · rw [h] at hc1
      exact absurd hc1 (by decide)
    · exact h (by simpa using hc2)

/-- C5 witness: the text-step equation applied at a concrete text token inside
an open inline `<b>`. -/
theorem c5_witness :
    sanLoop default_sanitize_html_settings 1
        [⟨token_type.text, "a)".data, [], [], false⟩] ["b".data] =
      piece.txt (escape_html (parenAdjust default_sanitize_html_settings
          ["b".data] "a)".data)) ::
        sanLoop default_sanitize_html_settings 0 [] ["b".data] :=
  c5_text_escape.1 default_sanitize_html_settings 0 _ [] ["b".data] rfl rfl

/-- C3: an allowed `<a>` start tag whose parsed href passes `is_safe_href`
appends exactly `<a href="` + V + `">` with the parsed value V spliced in
verbatim (no HTML escaping); concretely, a double quote inside a
single-quoted href value reappears verbatim inside the emitted double-quoted
attribute. -/
theorem c3_anchor_verbatim :
    (∀ (st : sanitize_html_settings) (n : Nat) (tok : token) (rest : List token)
        (stack : List Str) (v : Str),
      tok.m_type = token_type.start_tag →
      tok.m_tag_name = "a".data →
      st.m_allowed_tags.contains "a".data = true →
      map_find (parse_attributes tok.m_attr_str) "href".data = some v →
      is_safe_href v = true →
      sanLoop st (n + 1) (tok :: rest) stack =
        piece.aHref v :: sanLoop st n rest ("a".data :: stack)) ∧
    (∀ v : Str, renderPiece (piece.aHref v) = "<a href=\"".data ++ v ++ "\">".data) ∧
    sanitize_html "<a href='http://x\"y'>z</a>".data default_sanitize_html_settings =
      result.ok "<a href=\"http://x\"y\">z</a>".data := by
  refine ⟨?_, fun v => rfl, by decide⟩
  intro st n tok rest stack v htype hname hal hfind hsafe
  have hobf : isObfStartName tok.m_tag_name = false := by
    rw [hname]
    decide
  simp only [sanLoop, htype, hobf, Bool.false_and, Bool.and_self, hname, hal,
    if_pos rfl, hfind, hsafe]
  rfl

/-- C3 witness: the anchor-step equation applied at a concrete start tag with
a safe href. -/
theorem c3_witness :
    sanLoop default_sanitize_html_settings 1
        [⟨token_type.start_tag, [], "a".data, " href='http://e'".data, false⟩] [] =
      piece.aHref "http://e".data ::
        sanLoop default_sanitize_html_settings 0 [] ["a".data] :=
  c3_anchor_verbatim.1 default_sanitize_html_settings 0 _ [] [] "http://e".data
    rfl rfl (by decide) (by decide) (by decide)

/-- C4 counterexample: with the strict-balance flag set (the default), an
already-open block-level `<p>` is not closed before a new `<p>` is emitted:
`<p>a<p>b` produces nested `<p>a<p>b</p></p>`, not `<p>a</p><p>b</p>`. -/
theorem c4_counterexample :
    default_sanitize_html_settings.m_preserve_structure = true ∧
    ("p".data ∈ default_sanitize_html_settings.m_block_level_tags) ∧
    sanitize_html "<p>a<p>b".data default_sanitize_html_settings =
      result.ok "<p>a<p>b</p></p>".data ∧
    "<p>a<p>b</p></p>".data ≠ "<p>a</p><p>b</p>".data := by
  refine ⟨by decide, by decide, by decide, by decide⟩

/-- No block-level tag name of the default policy is a strict prefix of
"script", so the obfuscated-script rule never preempts a block-level tag. -/
lemma block_level_not_obf {nm : Str}
    (h : nm ∈ default_sanitize_html_settings.m_block_level_tags) :
    isObfStartName nm = false := by
  fin_cases h <;> decide

/-- No block-level tag name of the default policy is the anchor tag. -/
lemma block_level_ne_anchor {nm : Str}
    (h : nm ∈ default_sanitize_html_settings.m_block_level_tags) :
    nm ≠ "a".data := by
  fin_cases h <;> decide

/-- C4 (amended): for every start_tag token whose name is an allowed
block-level tag, and for every settings value — in particular irrespective of
the strict-balance `m_preserve_structure` flag and of the settings'
`m_block_level_tags` set, which the pass never consults — the sanitize pass
pops and closes nothing: it emits `<tag_name>` directly, pushing it onto the
open-tag stack unless the tag is a void element (`hr`, `br`), which is
emitted without a push. -/
theorem c4_no_block_close (st : sanitize_html_settings) (n : Nat) (tok : token)
    (rest : List token) (stack : List Str)
    (htype : tok.m_type = token_type.start_tag)
    (hblock : tok.m_tag_name ∈ default_sanitize_html_settings.m_block_level_tags)
    (hal : st.m_allowed_tags.contains tok.m_tag_name = true) :
    sanLoop st (n + 1) (tok :: rest) stack =
      if k_void_elements.contains tok.m_tag_name then
        piece.voidT tok.m_tag_name :: sanLoop st n rest stack
      else
        piece.openT tok.m_tag_name :: sanLoop st n rest (tok.m_tag_name :: stack) := by
  have hobf : isObfStartName tok.m_tag_name = false := block_level_not_obf hblock
  have hna : tok.m_tag_name ≠ "a".data := block_level_ne_anchor hblock
  simp only [sanLoop, htype, hobf, Bool.false_and, Bool.false_eq_true, if_false, hal,
    if_pos rfl, if_neg hna, if_true]

/-- C4 witness: the step equation applied at a block-level `<p>` start tag
while another `p` is still open (pushed, nothing closed first), and at a void
block-level `<hr>` (emitted without a push). -/
theorem c4_witness :
    (sanLoop default_sanitize_html_settings 1
        [⟨token_type.start_tag, [], "p".data, [], false⟩] ["p".data] =
      piece.openT "p".data ::
        sanLoop default_sanitize_html_settings 0 [] ["p".data, "p".data]) ∧
    (sanLoop default_sanitize_html_settings 1
        [⟨token_type.start_tag, [], "hr".data, [], false⟩] ["p".data] =
      piece.voidT "hr".data ::
        sanLoop default_sanitize_html_settings 0 [] ["p".data]) := by
  constructor
  · rw [c4_no_block_close default_sanitize_html_settings 0 _ [] ["p".data] rfl
      (by decide) (by decide)]
    rfl
  · rw [c4_no_block_close default_sanitize_html_settings 0 _ [] ["p".data] rfl
      (by decide) (by decide)]
    rfl

/-- C2 counterexample: an href value that passes `is_safe_href` may itself
contain `<script`, and it is emitted verbatim, so the output contains the
dangerous substring. -/
theorem c2_counterexample :
    ("<script".data <:+: to_lower_case
      (sanitize_output "<a href=\"http://x<script\">hi</a>".data
        default_sanitize_html_settings)) ∧
    sanitize_html "<a href=\"http://x<script\">hi</a>".data
        default_sanitize_html_settings =
      result.ok "<a href=\"http://x<script\">hi</a>".data := by
  refine ⟨by decide, by decide⟩

/-- C2 (amended): under the default settings, for every input whose emitted
anchor href values contain no `<` character, the output contains none of
`<script`, `<iframe`, `<object`, `<embed`, `<base`, `<style`, `<xml`
case-insensitively; and a disallowed dangerous start tag makes the pass
continue at `skipDanger`, which consumes the tokens up to and including the
matching end tag (tracking a depth counter) plus the single token immediately
following it when one exists. -/
theorem c2_danger_free (input : Str)
    (h : ∀ p ∈ sanitize_pieces input default_sanitize_html_settings, hrefClean p = true) :
    (∀ w ∈ dangerWords,
      ¬ w <:+: to_lower_case (sanitize_output input default_sanitize_html_settings)) ∧
    (∀ (st : sanitize_html_settings) (n : Nat) (tok : token) (rest : List token)
        (stack : List Str),
      tok.m_type = token_type.start_tag →
      st.m_allowed_tags.contains tok.m_tag_name = false →
      k_dangerous_tags.contains tok.m_tag_name = true →
      sanLoop st (n + 1) (tok :: rest) stack =
        sanLoop st n (skipDanger tok.m_tag_name 1 rest) stack) := by
  constructor
  · intro w hw
    exact sanitize_watch (List.mem_cons_of_mem _ hw) h
  · intro st n tok rest stack htype hnal hdan
    have hobf : isObfStartName tok.m_tag_name = false :=
      dangerous_not_obf (mem_of_contains hdan)
    simp only [sanLoop, htype, hobf, Bool.false_and, Bool.false_eq_true, if_false,
      hnal, hdan, if_true]

/-- C2 witness: the non-leakage part applied at a concrete input with no
anchors, together with the discharged href-cleanliness hypothesis. -/
theorem c2_witness :
    (∀ p ∈ sanitize_pieces "<script>x</script>y".data default_sanitize_html_settings,
        hrefClean p = true) ∧
    ¬ "<script".data <:+: to_lower_case
        (sanitize_output "<script>x</script>y".data default_sanitize_html_settings) :=
  ⟨by decide,
   (c2_danger_free "<script>x</script>y".data (by decide)).1 "<script".data (by decide)⟩

/-- C6 counterexample: `"s"` is a non-empty strict prefix of `"script"`, yet
`<s><b>x</b></s>` passes through unchanged — the rule does not trigger when
the next token is not text; and the empty tag name (also not a non-empty
prefix) does trigger the rule: `<>a<b>c</b>` collapses to `a`. -/
theorem c6_counterexample :
    ("s".data ≠ []) ∧ isObfStartName "s".data = true ∧
    sanitize_html "<s><b>x</b></s>".data default_sanitize_html_settings =
      result.ok "<s><b>x</b></s>".data ∧
    isObfStartName [] = true ∧
    sanitize_output "<>a<b>c</b>".data default_sanitize_html_settings = "a".data := by
  refine ⟨by decide, by decide, by decide, by decide, by decide⟩

/-- C6 (amended): the obfuscated-script rule triggers exactly when the start
tag's name is a (possibly empty) strict prefix of "script" AND the following
token exists and is text; it strips the missing suffix of "script" from the
front of that text when present, escapes and appends the rest, emits nothing
of the tag, and skips up to and including the first end tag whose name is
likewise a (possibly empty) strict prefix of "script", without balancing
nested reopenings — demonstrated by the nested-reopening input whose trailing
text `X` survives. -/
theorem c6_obfuscated_step :
    (∀ (st : sanitize_html_settings) (n : Nat) (tok t1 : token) (rest : List token)
        (stack : List Str),
      tok.m_type = token_type.start_tag →
      isObfStartName tok.m_tag_name = true →
      t1.m_type = token_type.text →
      sanLoop st (n + 1) (tok :: t1 :: rest) stack =
        piece.txt (escape_html (stripRem
            (k_dangerous_full_tag.drop tok.m_tag_name.length) t1.m_content)) ::
          sanLoop st n (skipObf (t1 :: rest)) stack) ∧
    sanitize_output "<scr>ipt<scr>ipt</scr>X</scr>".data
        default_sanitize_html_settings = "X".data := by
  refine ⟨?_, by decide⟩
  intro st n tok t1 rest stack htype hobf ht1
  have hnext : nextIsText (t1 :: rest) = true := by
    simp [nextIsText, ht1]
  simp only [sanLoop, htype, hobf, hnext, Bool.and_self, if_true]

/-- C6 witness: the obfuscation step equation applied at a concrete `<scr>`
start tag followed by a text token. -/
theorem c6_witness :
    sanLoop default_sanitize_html_settings 2
        [⟨token_type.start_tag, [], "scr".data, [], false⟩,
         ⟨token_type.text, "ipt alert".data, [], [], false⟩] [] =
      piece.txt (escape_html (stripRem (k_dangerous_full_tag.drop "scr".data.length)
          "ipt alert".data)) ::
        sanLoop default_sanitize_html_settings 1
          (skipObf [⟨token_type.text, "ipt alert".data, [], [], false⟩]) [] :=
  c6_obfuscated_step.1 default_sanitize_html_settings 1 _ _ [] [] rfl (by decide) rfl

/-- C10 counterexample: a safe-scheme href value may contain `<!--` and is
emitted verbatim, so the output can contain the comment opener. -/
theorem c10_counterexample :
    "<!--".data <:+: sanitize_output "<a href=\"http://x<!--\">y</a>".data
      default_sanitize_html_settings := by
  decide

/-- C10 (amended): comment tokens are dropped unconditionally by the sanitize
pass; under default settings the output never contains the literal substring
`-->`; and it never contains the literal substring `<!--` provided no emitted
anchor href value contains a `<` character. -/
theorem c10_comment_elim :
    (∀ (st : sanitize_html_settings) (n : Nat) (tok : token) (rest : List token)
        (stack : List Str), tok.m_type = token_type.comment →
      sanLoop st (n + 1) (tok :: rest) stack = sanLoop st n rest stack) ∧
    (∀ input : Str,
      ¬ ("-->".data <:+: sanitize_output input default_sanitize_html_settings)) ∧
    (∀ input : Str,
      (∀ p ∈ sanitize_pieces input default_sanitize_html_settings, hrefClean p = true) →
      ¬ ("<!--".data <:+: sanitize_output input default_sanitize_html_settings)) := by
  refine ⟨?_, ?_, ?_⟩
  · intro st n tok rest stack htype
    simp only [sanLoop, htype]
  · intro input hocc
    have h2 : ("->".data : Str) <:+: sanitize_output input default_sanitize_html_settings :=
      List.IsInfix.trans (by decide) hocc
    exact noDashGt_not_infix (pieces_noDashGt _ (sanitize_pieces_inv input)) h2
  · intro input h hocc
    have hlow : ("<!--".data : Str) <:+:
        to_lower_case (sanitize_output input default_sanitize_html_settings) := by
      have hm := hocc.map lowerChar
      rwa [show (("<!--".data : Str).map lowerChar) = "<!--".data from rfl] at hm
    exact sanitize_watch (List.mem_cons_self _ _) h hlow

/-- C10 witness: the `<!--`-freedom part applied at a concrete commented
input with its href-cleanliness hypothesis discharged. -/
theorem c10_witness :
    (∀ p ∈ sanitize_pieces "<p>x<!--y-->z</p>".data default_sanitize_html_settings,
        hrefClean p = true) ∧
    ¬ ("<!--".data <:+:
        sanitize_output "<p>x<!--y-->z</p>".data default_sanitize_html_settings) :=
  ⟨by decide, c10_comment_elim.2.2 "<p>x<!--y-->z</p>".data (by decide)⟩

/-- C7 counterexample: the tokenizer does not strip a trailing `/` from the
tag name: `<br/>` yields tag name `br/`, not `br` — and downstream the
element therefore vanishes from the sanitized output instead of emitting
`<br>`. -/
theorem c7_counterexample :
    tokenize_html "<br/>".data =
      [⟨token_type.start_tag, [], "br/".data, [], false⟩] ∧
    "br/".data ≠ "br".data ∧
    sanitize_output "<br/>".data default_sanitize_html_settings = [] := by
  refine ⟨by decide, by decide, by decide⟩

/-- C7 (amended): for every tag whose `>` terminator exists (and that is not
a comment or CDATA opener), the tokenizer takes the body up to the first `>`,
decides end-vs-start by a leading `/`, splits the body by skipping leading
whitespace, reading the name up to the next whitespace and taking the raw
attribute string as the remainder up to the first newline, and lower-cases
the name without stripping any trailing `/`. -/
theorem c7_tag_split (n : Nat) (body after : Str)
    (hgt : '>' ∉ body)
    (hcd : k_cdata_start.isPrefixOf ('<' :: (body ++ '>' :: after)) = false)
    (hcm : k_comment_start.isPrefixOf ('<' :: (body ++ '>' :: after)) = false) :
    tokGo (n + 1) ('<' :: (body ++ '>' :: after)) =
      (if body.head? = some '/' then
        (⟨token_type.end_tag, [], to_lower_case (splitTagBody body.tail).1, [], false⟩ : token)
       else
        ⟨token_type.start_tag, [], to_lower_case (splitTagBody body).1,
          (splitTagBody body).2, false⟩) :: tokGo n after := by
  simp only [tokGo, List.isEmpty_cons, Bool.false_eq_true, if_false, hcd, hcm,
    List.head?_cons, List.tail_cons, reduceIte]
  cases body with
  | nil =>
    simp [List.takeWhile_cons, List.dropWhile_cons]
  | cons c body2 =>
    by_cases hc : c = '/'
    · subst hc
      have hgt2 : '>' ∉ body2 := fun hm => hgt (List.mem_cons_of_mem _ hm)
      simp only [List.cons_append, List.head?_cons, reduceIte, List.tail_cons,
        takeWhile_append_gt body2 after hgt2, dropWhile_append_gt body2 after hgt2]
    · rw [if_neg (by simp [hc] : ¬((c :: body2) ++ '>' :: after : Str).head? = some '/'),
        if_neg (by simp [hc] : ¬((c :: body2) : Str).head? = some '/')]
      rw [takeWhile_append_gt _ after hgt, dropWhile_append_gt _ after hgt]
      split
      · rename_i heq
        cases heq
      · rename_i hd tl heq
        injection heq with h1 h2
        subst h2
        rw [if_neg (by simp [hc] : ¬((c :: body2) ++ '>' :: after : Str).head? = some '/')]

/-- C7 witness: the tag-splitting equation applied at the concrete `<br/>`
input, showing the emitted token keeps the trailing slash in its name. -/
theorem c7_witness :
    ('>' ∉ ("br/".data : Str)) ∧
    tokGo 5 ('<' :: ("br/".data ++ '>' :: [])) =
      (⟨token_type.start_tag, [], to_lower_case (splitTagBody "br/".data).1,
        (splitTagBody "br/".data).2, false⟩ : token) :: tokGo 4 [] :=
  ⟨by decide, by
    rw [c7_tag_split 4 "br/".data [] (by decide) (by decide) (by decide)]
    rfl⟩

end aww
